import Mathlib

/-
Verification of the engram evaluation harness (eval/engram_eval.py,
eval/locomo_eval.py, eval/improvement_loop.py).

Strings are modelled as `List Char` over the ASCII range: the Python code
applies `unicodedata.normalize("NFD", s)`, which is the identity on ASCII
strings, so the NFD stage is modelled as the identity and every universally
quantified statement about `normalize_answer` carries an explicit ASCII
hypothesis.  Python floats are modelled as exact rationals (`ℚ`); every
constant involved (0.05, 0.03, 0.9, 100, ...) is decimal, and the properties
claimed (bounds, monotonicity, guard behaviour, exact values on the given
examples) are about the arithmetic the code writes down, not about rounding.
Subprocess and network effects are modelled by passing the outcome of the
external call (exit code, stdout, build success, remote reply) as an explicit
argument.  Functions that consume their input by runs (regex word runs,
whitespace runs, substring replacement) are written with an explicit fuel
equal to the input length so that they compute by kernel reduction; the
run-based unfolding equations are proved below each definition.
-/

namespace Engram

/-- ASCII whitespace as recognised by Python `str.split()` / `str.strip()`:
space, tab, newline, carriage return, vertical tab, form feed. -/
def isWS (c : Char) : Bool :=
  c == ' ' || c == '\t' || c == '\n' || c == '\r' || c == '\x0b' || c == '\x0c'

/-- Lower-case ASCII letter, the class `[a-z]`. -/
def isLowerAZ (c : Char) : Bool := 97 ≤ c.toNat && c.toNat ≤ 122

/-- Upper-case ASCII letter, the class `[A-Z]`. -/
def isUpperAZ (c : Char) : Bool := 65 ≤ c.toNat && c.toNat ≤ 90

/-- ASCII digit, the class `[0-9]`. -/
def isDigit09 (c : Char) : Bool := 48 ≤ c.toNat && c.toNat ≤ 57

/-- The character class `[a-z0-9]` kept by the final regex of
`normalize_answer`. -/
def isLcAlnum (c : Char) : Bool := isLowerAZ c || isDigit09 c

/-- Python `str.lower()` restricted to ASCII: map `A`..`Z` to `a`..`z` and
leave every other character unchanged. -/
def pyLower (c : Char) : Char :=
  if isUpperAZ c then Char.ofNat (c.toNat + 32) else c

/-- A regex word character (`\w`, which gives the `\b` boundaries of
`re.sub(r"\b(a|an|the|and)\b", " ", s)`): ASCII alphanumeric or underscore. -/
def isWordChar (c : Char) : Bool :=
  isLowerAZ c || isUpperAZ c || isDigit09 c || c == '_'

/-- One character of `re.sub(r"[^a-z0-9 ]", " ", s)`: characters outside
`[a-z0-9 ]` become a space, the rest are kept. -/
def stripChar (c : Char) : Char :=
  if isLcAlnum c || c == ' ' then c else ' '

/-- The stop words removed as whole words: `a`, `an`, `the`, `and`. -/
def isStop (w : List Char) : Bool :=
  w == "a".toList || w == "an".toList || w == "the".toList || w == "and".toList

/-- Fueled worker for `stopSub`; the fuel only serves structural recursion
and is irrelevant as soon as it is at least the input length. -/
def stopSubGo : ℕ → List Char → List Char
  | _, [] => []
  | 0, l => l
  | fuel + 1, c :: cs =>
    if isWordChar c then
      (if isStop (c :: cs.takeWhile isWordChar) then [' ']
       else c :: cs.takeWhile isWordChar) ++ stopSubGo fuel (cs.dropWhile isWordChar)
    else
      c :: stopSubGo fuel cs

/-- The substitution `re.sub(r"\b(a|an|the|and)\b", " ", s)`.  Because each
alternative consists of word characters only and is anchored by `\b` on both
sides, a match is exactly a maximal run of word characters equal to one of the
four words; each such run is replaced by one space. -/
def stopSub (l : List Char) : List Char := stopSubGo l.length l

theorem stopSubGo_congr : ∀ (f₁ f₂ : ℕ) (l : List Char),
    l.length ≤ f₁ → l.length ≤ f₂ → stopSubGo f₁ l = stopSubGo f₂ l := by
  intro f₁
  induction f₁ with
  | zero =>
    intro f₂ l h₁ _
    have : l = [] := List.length_eq_zero.mp (Nat.le_zero.mp h₁)
    subst this
    cases f₂ <;> rfl
  | succ f ih =>
    intro f₂ l h₁ h₂
    match l with
    | [] => cases f₂ <;> rfl
    | c :: cs =>
      match f₂ with
      | 0 => exact absurd h₂ (by simp)
      | g + 1 =>
        simp only [stopSubGo]
        have hdrop : (cs.dropWhile isWordChar).length ≤ cs.length :=
          (List.dropWhile_sublist _).length_le
        have hcs : cs.length ≤ f := Nat.lt_succ_iff.mp h₁
        have hcs' : cs.length ≤ g := Nat.lt_succ_iff.mp h₂
        rw [ih g (cs.dropWhile isWordChar) (le_trans hdrop hcs) (le_trans hdrop hcs'),
            ih g cs hcs hcs']

theorem stopSub_nil : stopSub [] = [] := rfl

theorem stopSub_cons_word (c : Char) (cs : List Char) (h : isWordChar c = true) :
    stopSub (c :: cs) =
      (if isStop (c :: cs.takeWhile isWordChar) then [' ']
       else c :: cs.takeWhile isWordChar) ++ stopSub (cs.dropWhile isWordChar) := by
  show stopSubGo (cs.length + 1) (c :: cs) = _
  simp only [stopSubGo, h, if_true]
  rw [stopSubGo_congr cs.length (cs.dropWhile isWordChar).length (cs.dropWhile isWordChar)
      ((List.dropWhile_sublist _).length_le) (le_refl _)]
  rfl

theorem stopSub_cons_nonword (c : Char) (cs : List Char) (h : isWordChar c = false) :
    stopSub (c :: cs) = c :: stopSub cs := by
  show stopSubGo (cs.length + 1) (c :: cs) = _
  simp only [stopSubGo, h, if_false, Bool.false_eq_true]
  rfl

/-- Fueled worker for `splitWs`. -/
def splitWsGo : ℕ → List Char → List (List Char)
  | _, [] => []
  | 0, l => [l]
  | fuel + 1, c :: cs =>
    if isWS c then splitWsGo fuel cs
    else (c :: cs.takeWhile (fun d => !isWS d)) ::
         splitWsGo fuel (cs.dropWhile (fun d => !isWS d))

/-- Python `str.split()` with no argument: the maximal runs of non-whitespace
characters, with no empty tokens. -/
def splitWs (l : List Char) : List (List Char) := splitWsGo l.length l

theorem splitWsGo_congr : ∀ (f₁ f₂ : ℕ) (l : List Char),
    l.length ≤ f₁ → l.length ≤ f₂ → splitWsGo f₁ l = splitWsGo f₂ l := by
  intro f₁
  induction f₁ with
  | zero =>
    intro f₂ l h₁ _
    have : l = [] := List.length_eq_zero.mp (Nat.le_zero.mp h₁)
    subst this
    cases f₂ <;> rfl
  | succ f ih =>
    intro f₂ l h₁ h₂
    match l with
    | [] => cases f₂ <;> rfl
    | c :: cs =>
      match f₂ with
      | 0 => exact absurd h₂ (by simp)
      | g + 1 =>
        simp only [splitWsGo]
        have hdrop : (cs.dropWhile (fun d => !isWS d)).length ≤ cs.length :=
          (List.dropWhile_sublist _).length_le
        have hcs : cs.length ≤ f := Nat.lt_succ_iff.mp h₁
        have hcs' : cs.length ≤ g := Nat.lt_succ_iff.mp h₂
        rw [ih g (cs.dropWhile (fun d => !isWS d)) (le_trans hdrop hcs) (le_trans hdrop hcs'),
            ih g cs hcs hcs']

theorem splitWs_nil : splitWs [] = [] := rfl

theorem splitWs_cons_ws (c : Char) (cs : List Char) (h : isWS c = true) :
    splitWs (c :: cs) = splitWs cs := by
  show splitWsGo (cs.length + 1) (c :: cs) = _
  simp only [splitWsGo, h, if_true]
  rfl

theorem splitWs_cons_nonws (c : Char) (cs : List Char) (h : isWS c = false) :
    splitWs (c :: cs) =
      (c :: cs.takeWhile (fun d => !isWS d)) ::
        splitWs (cs.dropWhile (fun d => !isWS d)) := by
  show splitWsGo (cs.length + 1) (c :: cs) = _
  simp only [splitWsGo, h, if_false, Bool.false_eq_true]
  rw [splitWsGo_congr cs.length (cs.dropWhile (fun d => !isWS d)).length
      (cs.dropWhile (fun d => !isWS d)) ((List.dropWhile_sublist _).length_le) (le_refl _)]
  rfl

/-- Python `" ".join(tokens)`. -/
def joinSpace : List (List Char) → List Char
  | [] => []
  | [t] => t
  | t :: ts => t ++ ' ' :: joinSpace ts

/-- `normalize_answer` from eval/engram_eval.py (the copy in
eval/locomo_eval.py is textually identical):

    s = str(s).replace(",", "")
    s = unicodedata.normalize("NFD", s)
    s = re.sub(r"\b(a|an|the|and)\b", " ", s.lower())
    s = re.sub(r"[^a-z0-9 ]", " ", s)
    return " ".join(s.split())

The NFD stage is the identity on ASCII strings and is modelled as the
identity. -/
def normalize_answer (s : List Char) : List Char :=
  joinSpace (splitWs (List.map stripChar
    (stopSub (List.map pyLower (List.filter (fun c => !(c == ',')) s)))))

/-- The token list `normalize_answer(x).split()` used by `token_f1`. -/
def answer_tokens (s : List Char) : List (List Char) :=
  splitWs (normalize_answer s)

/-- `token_f1` from eval/engram_eval.py (identical in eval/locomo_eval.py):
token lists of prediction and gold; if either is empty, 1 iff both are;
otherwise `common` is the set intersection of the two token lists (distinct
tokens), precision `|common|/len(pred_tokens)`, recall
`|common|/len(gold_tokens)`, and the score is their harmonic mean. -/
def token_f1 (prediction gold : List Char) : ℚ :=
  let pred_tokens := answer_tokens prediction
  let gold_tokens := answer_tokens gold
  if pred_tokens.isEmpty || gold_tokens.isEmpty then
    (if pred_tokens == gold_tokens then 1 else 0)
  else
    let common := pred_tokens.dedup.filter (fun t => gold_tokens.contains t)
    if common.isEmpty then 0
    else
      let precisionQ : ℚ := (common.length : ℚ) / (pred_tokens.length : ℚ)
      let recallQ : ℚ := (common.length : ℚ) / (gold_tokens.length : ℚ)
      2 * precisionQ * recallQ / (precisionQ + recallQ)


/-- Python `str.startswith` on the list model. -/
def leadsWith : List Char → List Char → Bool
  | [], _ => true
  | _ :: _, [] => false
  | p :: ps, c :: cs => p == c && leadsWith ps cs

/-- Python substring containment `pat in s`. -/
def containsSub (pat : List Char) : List Char → Bool
  | [] => leadsWith pat []
  | c :: cs => leadsWith pat (c :: cs) || containsSub pat cs

/-- Fueled worker for `replaceAll`. -/
def replaceAllGo (pat new : List Char) : ℕ → List Char → List Char
  | _, [] => []
  | 0, l => l
  | fuel + 1, c :: cs =>
    if !pat.isEmpty && leadsWith pat (c :: cs) then
      new ++ replaceAllGo pat new fuel ((c :: cs).drop pat.length)
    else
      c :: replaceAllGo pat new fuel cs

/-- Python `s.replace(pat, new)`: replace non-overlapping occurrences left to
right.  All patterns used by the code are non-empty; on an empty pattern this
model is the identity. -/
def replaceAll (pat new s : List Char) : List Char := replaceAllGo pat new s.length s

/-- Python `str.strip()`: drop whitespace from both ends. -/
def pyStrip (s : List Char) : List Char :=
  ((s.dropWhile isWS).reverse.dropWhile isWS).reverse

/-- Fueled worker for `splitlines`. -/
def splitlinesGo : ℕ → List Char → List (List Char)
  | _, [] => []
  | 0, l => [l]
  | fuel + 1, c :: cs =>
    match (c :: cs).dropWhile (fun d => !(d == '\n')) with
    | [] => [(c :: cs).takeWhile (fun d => !(d == '\n'))]
    | _ :: rest => (c :: cs).takeWhile (fun d => !(d == '\n')) :: splitlinesGo fuel rest

/-- Python `str.splitlines()` restricted to newline separators (the only line
boundary produced by the engine subprocess on this platform): no trailing
empty line for a trailing newline, and an empty string gives no lines. -/
def splitlines (s : List Char) : List (List Char) := splitlinesGo s.length s

/-- The sentinel substring the engine prints when retrieval finds nothing. -/
def notFoundSentinel : List Char := "Not found in knowledge base".toList

/-- Outcome of one engine subprocess invocation, as observed by
`subprocess.run(args, capture_output=True, text=True, timeout=30)`:
either the process completed with an exit code and captured stdout, or the
timeout expired (in which case `subprocess.run` raises `TimeoutExpired`). -/
inductive ProcOutcome where
  | completed (exitCode : ℤ) (stdout : List Char)
  | timedOut
deriving DecidableEq

/-- `ask_engram` from eval/engram_eval.py (`EngramRunner.ask` in
eval/locomo_eval.py is the same logic).  The function body contains no
`try`/`except`: a completed run with non-zero exit code or with the
not-found sentinel in stdout yields the empty prediction; a completed run
otherwise has its `Sources:`/`Hint:` lines stripped; a timeout makes
`subprocess.run` raise `TimeoutExpired`, which propagates to the caller and
is modelled by `Except.error`. -/
def ask_engram (outcome : ProcOutcome) : Except Unit (List Char) :=
  match outcome with
  | ProcOutcome.timedOut => Except.error ()
  | ProcOutcome.completed rc out =>
    if rc != 0 || containsSub notFoundSentinel out then Except.ok []
    else
      Except.ok (pyStrip (List.intercalate ['\n']
        ((splitlines (pyStrip out)).filter
          (fun l => !leadsWith ("Sources:".toList) l && !leadsWith ("Hint:".toList) l))))

/-- The judge prompt `JUDGE_PROMPT.format(question=..., gold=..., prediction=...)`
from eval/engram_eval.py. -/
def JUDGE_PROMPT_render (question gold prediction : List Char) : List Char :=
  "Is this answer correct or semantically equivalent to the gold answer?\n\nQuestion: ".toList
    ++ question ++ "\nGold: ".toList ++ gold ++ "\nAnswer: ".toList ++ prediction
    ++ "\n\nReply YES or NO only.".toList

/-- Python `str.upper()` restricted to ASCII. -/
def pyUpper (s : List Char) : List Char :=
  s.map (fun c => if isLowerAZ c then Char.ofNat (c.toNat - 32) else c)

/-- `llm_judge` from eval/engram_eval.py.  The remote model is the function
argument `gemini` (prompt to reply); the second component of the result
records whether `gemini_call` was invoked.  An empty prediction or one
containing the not-found sentinel returns 0.0 before any remote call. -/
def llm_judge (gemini : List Char → List Char) (question gold prediction : List Char) :
    ℚ × Bool :=
  if prediction.isEmpty || containsSub notFoundSentinel prediction then (0, false)
  else
    ((if leadsWith ("YES".toList)
          (pyUpper (pyStrip (gemini
            (JUDGE_PROMPT_render question (gold.take 100) (prediction.take 200)))))
      then 1 else 0), true)

/-- The literal `chunk_text(&content, 1000)` searched for in search.rs. -/
def pat1000 : List Char := "chunk_text(&content, 1000)".toList

/-- The literal `chunk_text(&content, 500)` marking the mutation as applied. -/
def pat500 : List Char := "chunk_text(&content, 500)".toList

/-- Result of a source-mutating strategy: the boolean the Python function
returns and the content of the mutated file after the call. -/
structure PatchResult where
  applied : Bool
  content : List Char
deriving DecidableEq

/-- Outcome of a code path that either returns a Bool normally or raises an
uncaught TypeError; `content` is the file on disk at that moment. -/
inductive ChunkStrategyOutcome where
  | returned (value : Bool) (content : List Char)
  | raisedTypeError (content : List Char)
deriving DecidableEq

/-- `strategy_reduce_chunk_size` from eval/improvement_loop.py with the file
system explicit: `content` is search.rs as read at entry.  It skips (returns
False, file untouched) when the 500 literal is already present or the 1000
literal is absent; otherwise it writes the replacement and then calls
`run(["cargo", "build", "--release"], cwd=str(ROOT), timeout=300)`.  The
local helper `run(cmd, timeout=300, env=None)` (line 29) accepts no `cwd`
keyword, so that call raises TypeError at the call site, before any build
runs: the function never reaches its revert branch (lines 144-148) or its
True return, and the exception propagates with the mutated content on
disk. -/
def strategy_reduce_chunk_size (content : List Char) : ChunkStrategyOutcome :=
  if containsSub pat500 content then ChunkStrategyOutcome.returned false content
  else if !containsSub pat1000 content then ChunkStrategyOutcome.returned false content
  else ChunkStrategyOutcome.raisedTypeError (replaceAll pat1000 pat500 content)

/-- `strategy_lower_threshold` from eval/improvement_loop.py:
`max(0.05, current_threshold - 0.03)`. -/
def strategy_lower_threshold (current_threshold : ℚ) : ℚ :=
  max (5 / 100) (current_threshold - 3 / 100)

/-- `strategy_increase_topk` from eval/improvement_loop.py:
`min(24, current_k + 4)`. -/
def strategy_increase_topk (current_k : ℕ) : ℕ := min 24 (current_k + 4)

/-- ASCII apostrophe, built by code point to keep the prompt literals exact. -/
def aposChar : Char := Char.ofNat 39

/-- The guidance marker `For bug entries` whose presence makes
`strategy_improve_synthesis` skip. -/
def synthMarker : List Char := "For bug entries".toList

/-- The replaced line of SYSTEM_QA_CONCISE in src/llm/prompts.rs. -/
def synthOld : List Char :=
  "     (5) No explanation, no preamble, no ".toList ++ [aposChar]
    ++ "The answer is".toList ++ [aposChar] ++ ". Just the answer. \\".toList

/-- The replacement text written by `strategy_improve_synthesis`. -/
def synthNew : List Char :=
  "     (5) For bug entries: state the fix/root-cause directly. \\\n     (6) For pattern entries: name the pattern/mechanism. \\\n     (7) For procedure entries: list the key steps concisely. \\\n     (8) No explanation, no preamble, no ".toList
    ++ [aposChar] ++ "The answer is".toList ++ [aposChar] ++ ". Just the answer. \\".toList

/-- `strategy_improve_synthesis` from eval/improvement_loop.py with the file
explicit: at iteration 2, when the marker is absent, replace the old prompt
line; the file is written (and True returned) only when the replacement
changed the text. -/
def strategy_improve_synthesis (iteration : ℕ) (content : List Char) : PatchResult :=
  if iteration == 2 && !containsSub synthMarker content then
    (if replaceAll synthOld synthNew content != content
     then ⟨true, replaceAll synthOld synthNew content⟩
     else ⟨false, content⟩)
  else ⟨false, content⟩

/-- Outcome of the Fix-5 block: either it completes with the Bool recording
whether `synthesis_prompt_v2` was appended to `applied`, or it raises an
uncaught TypeError; `content` is the prompts.rs on disk at that moment. -/
inductive SynthFixOutcome where
  | returned (recorded : Bool) (content : List Char)
  | raisedTypeError (content : List Char)
deriving DecidableEq

/-- The Fix-5 block of `main` in eval/improvement_loop.py (lines 319-331):
at iteration 2 run `strategy_improve_synthesis`; when it mutated the source
the block calls `run(["cargo", "build", "--release"], cwd=str(ROOT),
timeout=300)`, and since the `run` helper accepts no `cwd` keyword this
raises TypeError before any build: the `rc2` branch that would record
`synthesis_prompt_v2` is unreachable, and the exception propagates with the
mutated prompts.rs on disk.  When the strategy did not mutate, the block
completes having recorded nothing. -/
def synthesis_fix_step (iteration : ℕ) (content : List Char) : SynthFixOutcome :=
  if iteration == 2 then
    (if (strategy_improve_synthesis iteration content).applied then
      SynthFixOutcome.raisedTypeError (strategy_improve_synthesis iteration content).content
     else SynthFixOutcome.returned false (strategy_improve_synthesis iteration content).content)
  else SynthFixOutcome.returned false content

/-- `_avg` from eval/engram_eval.py: `sum(vals)/len(vals)*100 if vals else 0.0`. -/
def _avg (vals : List ℚ) : ℚ :=
  if vals.isEmpty then 0 else vals.sum / (vals.length : ℚ) * 100

/-- One `f1_by_cat[category].append(score)` on the insertion-ordered mapping
(`defaultdict(list)` preserves key insertion order, appends at the key). -/
def addScore (m : List (List Char × List ℚ)) (cat : List Char) (x : ℚ) :
    List (List Char × List ℚ) :=
  match m with
  | [] => [(cat, [x])]
  | e :: rest => if e.1 == cat then (e.1, e.2 ++ [x]) :: rest else e :: addScore rest cat x

/-- The aggregation loop of `main` in eval/engram_eval.py: starting from the
empty mapping, append each scored item `(category, score)` in order. -/
def runAgg (items : List (List Char × ℚ)) : List (List Char × List ℚ) :=
  items.foldl (fun m i => addScore m i.1 i.2) []

/-- `f1_by_cat.get(cat)` with Python truthiness: the stored list, or `[]`. -/
def lookupScores (m : List (List Char × List ℚ)) (cat : List Char) : List ℚ :=
  match m.find? (fun e => e.1 == cat) with
  | some e => e.2
  | none => []

/-- `_avg(all_f1)` where `all_f1 = [s for v in f1_by_cat.values() for s in v]`:
the overall score of a run. -/
def overall (m : List (List Char × List ℚ)) : ℚ := _avg ((m.map Prod.snd).flatten)

/-- The `by_category` dict of the results object (eval/engram_eval.py lines
426-433): for each requested category with a non-empty (truthy) score list,
the tuple (category, avg f1, avg judge, n). -/
def by_category (categories : List (List Char))
    (f1agg judgeagg : List (List Char × List ℚ)) : List (List Char × ℚ × ℚ × ℕ) :=
  (categories.filter (fun cat => !(lookupScores f1agg cat).isEmpty)).map
    (fun cat => (cat, _avg (lookupScores f1agg cat), _avg (lookupScores judgeagg cat),
                 (lookupScores f1agg cat).length))

/-- One row of the loop history: `{iteration, f1, judge, threshold, top_k}`
as appended by eval/improvement_loop.py line 260. -/
structure HistEntry where
  iteration : ℕ
  f1 : ℚ
  judge : ℚ
  threshold : ℚ
  top_k : ℕ
deriving DecidableEq

/-- The mutable state threaded through the loop: the tuning surface
(threshold, top_k) and the history list. -/
structure LoopState where
  threshold : ℚ
  top_k : ℕ
  history : List HistEntry
deriving DecidableEq

/-- The external world of one loop iteration: the eval subprocess outcome
and scores, and the file contents read by the iteration-2 strategies.  (The
cargo-build calls consume nothing from the world: they raise TypeError
before running, see `strategy_reduce_chunk_size` and
`synthesis_fix_step`.) -/
structure IterEnv where
  evalOK : Bool
  f1 : ℚ
  judge : ℚ
  searchRs : List Char
  promptsRs : List Char

/-- How one loop iteration ends: proceed to the next iteration, leave the
loop normally (eval failure, target reached, or no fix applied), or abort
the whole loop with an uncaught TypeError from a cargo-build call. -/
inductive IterExit where
  | next
  | halt
  | crashed
deriving DecidableEq

/-- A member of the `applied` list of one iteration.  The loop only ever
tests this list for emptiness and for containing the substring `reindex`
(true exactly for the chunk-size label and the reindex label). -/
inductive FixLabel where
  | thresholdTo (t : ℚ)
  | topkTo (k : ℕ)
  | chunkAndReindex
  | reindexOnly
  | synthPromptV2
deriving DecidableEq

/-- `"reindex" in str(applied)`: true iff some recorded label contains the
substring `reindex`. -/
def hasReindex (ls : List FixLabel) : Bool :=
  ls.any (fun l => match l with
    | FixLabel.chunkAndReindex => true
    | FixLabel.reindexOnly => true
    | _ => false)

/-- Fix 1 of the loop main (lines 289-293): when `threshold > 0.07`, lower it
via `strategy_lower_threshold`; the Bool reports whether a label was added to
`applied`. -/
def thresholdFix (t : ℚ) : ℚ × Bool :=
  if t > 7 / 100 then
    (if strategy_lower_threshold t ≠ t then (strategy_lower_threshold t, true)
     else (t, false))
  else (t, false)

/-- Fix 2 of the loop main (lines 296-300): when `top_k < 20` and
`current_judge < target_judge * 0.9`, raise top_k via
`strategy_increase_topk`; the Bool reports whether a label was added. -/
def topkFix (top_k : ℕ) (current_judge target_judge : ℚ) : ℕ × Bool :=
  if top_k < 20 ∧ current_judge < target_judge * (9 / 10) then
    (if strategy_increase_topk top_k ≠ top_k then (strategy_increase_topk top_k, true)
     else (top_k, false))
  else (top_k, false)

/-- One iteration of the loop body of `main` in eval/improvement_loop.py:
run the eval (break on non-zero exit, before recording history); append the
history row; break when the target judge score is reached; otherwise apply
fixes 1-5 in order.  At iteration 2 fix 3 and fix 5 can raise TypeError at
their cargo-build calls, aborting the loop with the fixes 1-2 updates
already applied; otherwise the loop continues only when `applied` is
non-empty. -/
def iter_step (target_judge : ℚ) (env : IterEnv) (i : ℕ) (st : LoopState) :
    IterExit × LoopState :=
  if !env.evalOK then (IterExit.halt, st)
  else
    let st1 : LoopState :=
      ⟨st.threshold, st.top_k,
       st.history ++ [⟨i, env.f1, env.judge, st.threshold, st.top_k⟩]⟩
    if env.judge ≥ target_judge then (IterExit.halt, st1)
    else
      let tf := thresholdFix st1.threshold
      let a1 : List FixLabel := if tf.2 then [FixLabel.thresholdTo tf.1] else []
      let kf := topkFix st1.top_k env.judge target_judge
      let a2 := a1 ++ (if kf.2 then [FixLabel.topkTo kf.1] else [])
      let st2 : LoopState := ⟨tf.1, kf.1, st1.history⟩
      if i == 2 then
        match strategy_reduce_chunk_size env.searchRs with
        | ChunkStrategyOutcome.raisedTypeError _ => (IterExit.crashed, st2)
        | ChunkStrategyOutcome.returned v _ =>
          let a3 := a2 ++ (if v then [FixLabel.chunkAndReindex] else [FixLabel.reindexOnly])
          let a4 := a3 ++ (if i % 2 == 0 && !hasReindex a3 then [FixLabel.reindexOnly] else [])
          match synthesis_fix_step i env.promptsRs with
          | SynthFixOutcome.raisedTypeError _ => (IterExit.crashed, st2)
          | SynthFixOutcome.returned recorded _ =>
            let a5 := a4 ++ (if recorded then [FixLabel.synthPromptV2] else [])
            (if a5.isEmpty then IterExit.halt else IterExit.next, st2)
      else
        let a4 := a2 ++ (if i % 2 == 0 && !hasReindex a2 then [FixLabel.reindexOnly] else [])
        (if a4.isEmpty then IterExit.halt else IterExit.next, st2)

/-- The `for iteration in range(1, max_iterations + 1)` loop: `fuel` counts
the remaining iterations, `i` is the current iteration number; a crash and a
normal break both end the loop with the current state. -/
def loop_go (target_judge : ℚ) (env : ℕ → IterEnv) :
    ℕ → ℕ → LoopState → LoopState
  | 0, _, st => st
  | fuel + 1, i, st =>
    if (iter_step target_judge (env i) i st).1 = IterExit.next then
      loop_go target_judge env fuel (i + 1) (iter_step target_judge (env i) i st).2
    else (iter_step target_judge (env i) i st).2

/-- `main` of eval/improvement_loop.py from the first iteration on, starting
from `threshold = 0.15`, `top_k = 12`, empty history. -/
def improvement_loop (max_iterations : ℕ) (target_judge : ℚ) (env : ℕ → IterEnv) :
    LoopState :=
  loop_go target_judge env max_iterations 1 ⟨15 / 100, 12, []⟩

/-- Adjacent-pair monotonicity check over a history: thresholds never
increase, top_k never decreases. -/
def chainOK : List HistEntry → Bool
  | [] => true
  | [_] => true
  | a :: b :: rest =>
    decide (b.threshold ≤ a.threshold) && decide (a.top_k ≤ b.top_k) && chainOK (b :: rest)

/-
Claim C1.  The spec expects tokenF1 = 1.0 on the outage example; the code
computes precision 2/4 (the prediction keeps the content tokens `caused` and
`outage` which are absent from the gold answer), recall 2/2, harmonic mean
2/3.
-/

/-- C1, counterexample: scoring the prediction `A database deadlock caused
the outage` against the gold answer `database deadlock` with `token_f1` does
not return 1.0. -/
theorem tokenF1_outage_not_one :
    token_f1 ("A database deadlock caused the outage".toList)
      ("database deadlock".toList) ≠ 1 := by
  have hp : answer_tokens ("A database deadlock caused the outage".toList) =
      ["database".toList, "deadlock".toList, "caused".toList, "outage".toList] := by decide
  have hg : answer_tokens ("database deadlock".toList) =
      ["database".toList, "deadlock".toList] := by decide
  have hc : (["database".toList, "deadlock".toList, "caused".toList,
        "outage".toList].dedup.filter
        (fun t => ["database".toList, "deadlock".toList].contains t)) =
      ["database".toList, "deadlock".toList] := by decide
  simp only [token_f1, hp, hg, hc]
  norm_num

/-- C1 (corrected): for the QA item with gold answer `database deadlock`,
scoring the prediction `A database deadlock caused the outage` with
`token_f1` returns exactly 2/3: after stop-word stripping the prediction has
four content tokens of which the two gold tokens are common, so precision is
1/2, recall is 1, and the harmonic mean is 2/3. -/
theorem tokenF1_outage_eq_two_thirds :
    token_f1 ("A database deadlock caused the outage".toList)
      ("database deadlock".toList) = 2 / 3 := by
  have hp : answer_tokens ("A database deadlock caused the outage".toList) =
      ["database".toList, "deadlock".toList, "caused".toList, "outage".toList] := by decide
  have hg : answer_tokens ("database deadlock".toList) =
      ["database".toList, "deadlock".toList] := by decide
  have hc : (["database".toList, "deadlock".toList, "caused".toList,
        "outage".toList].dedup.filter
        (fun t => ["database".toList, "deadlock".toList].contains t)) =
      ["database".toList, "deadlock".toList] := by decide
  simp only [token_f1, hp, hg, hc]
  norm_num

/-
Claim C3.  The range part holds for all inputs.  The reflexivity part fails
when the normalised token sequence has duplicates: `common` is a set
intersection, so token_f1(x,x) = distinct/count, e.g. 1/2 on `dog dog`.
-/

/-- Bounds of the harmonic-mean score for positive precision and recall at
most 1. -/
theorem harmonic_mean_bounds (m a b : ℚ) (hm : 0 < m) (ha : 0 < a) (hb : 0 < b)
    (hma : m ≤ a) (hmb : m ≤ b) :
    0 ≤ 2 * (m / a) * (m / b) / (m / a + m / b) ∧
    2 * (m / a) * (m / b) / (m / a + m / b) ≤ 1 := by
  have hppos : 0 < m / a := div_pos hm ha
  have hrpos : 0 < m / b := div_pos hm hb
  have hp1 : m / a ≤ 1 := by
    rw [div_le_one ha]
    exact hma
  have hr1 : m / b ≤ 1 := by
    rw [div_le_one hb]
    exact hmb
  constructor
  · positivity
  · rw [div_le_one (by positivity)]
    nlinarith [mul_nonneg hrpos.le (sub_nonneg.mpr hp1),
      mul_nonneg hppos.le (sub_nonneg.mpr hr1)]

/-- C3, counterexample: `dog dog` normalizes to the non-empty token sequence
[dog, dog], yet token_f1 of the string with itself is 1/2, not 1.0: the
intersection is the one distinct token while both lengths are 2. -/
theorem tokenF1_self_duplicate_tokens_ne_one :
    token_f1 ("dog dog".toList) ("dog dog".toList) ≠ 1 := by
  have hp : answer_tokens ("dog dog".toList) = ["dog".toList, "dog".toList] := by decide
  have hc : (["dog".toList, "dog".toList].dedup.filter
      (fun t => ["dog".toList, "dog".toList].contains t)) = ["dog".toList] := by decide
  simp only [token_f1, hp, hc]
  norm_num

/-- C3 (corrected): token_f1 always lies in [0,1]; and token_f1(x,x) = 1.0
whenever x normalizes to a non-empty sequence of pairwise-distinct tokens
(without the distinctness condition the self-score is the ratio of distinct
tokens to total tokens, as the counterexample shows). -/
theorem tokenF1_bounds_and_nodup_self (prediction gold x : List Char)
    (h1 : answer_tokens x ≠ []) (h2 : (answer_tokens x).Nodup) :
    (0 ≤ token_f1 prediction gold ∧ token_f1 prediction gold ≤ 1) ∧
    token_f1 x x = 1 := by
  constructor
  · by_cases hpe : (answer_tokens prediction).isEmpty = true
    · simp only [token_f1, hpe, Bool.true_or, if_true]
      split
      · norm_num
      · norm_num
    · by_cases hge : (answer_tokens gold).isEmpty = true
      · simp only [token_f1, hge, Bool.or_true, if_true]
        split
        · norm_num
        · norm_num
      · rw [Bool.not_eq_true] at hpe hge
        have hor : ((answer_tokens prediction).isEmpty
            || (answer_tokens gold).isEmpty) = false := by
          rw [hpe, hge]
          rfl
        simp only [token_f1, hor, Bool.false_eq_true, if_false]
        by_cases hce : ((answer_tokens prediction).dedup.filter
            (fun t => (answer_tokens gold).contains t)).isEmpty = true
        · simp only [hce, if_true]
          norm_num
        · rw [Bool.not_eq_true] at hce
          simp only [hce, Bool.false_eq_true, if_false]
          have hA : answer_tokens prediction ≠ [] := by
            intro hcon
            rw [hcon] at hpe
            simp at hpe
          have hB : answer_tokens gold ≠ [] := by
            intro hcon
            rw [hcon] at hge
            simp at hge
          have hC : ((answer_tokens prediction).dedup.filter
              (fun t => (answer_tokens gold).contains t)) ≠ [] := by
            intro hcon
            rw [hcon] at hce
            simp at hce
          have hm1 : 1 ≤ ((answer_tokens prediction).dedup.filter
              (fun t => (answer_tokens gold).contains t)).length :=
            List.length_pos.mpr hC
          have hmleA : ((answer_tokens prediction).dedup.filter
              (fun t => (answer_tokens gold).contains t)).length
                ≤ (answer_tokens prediction).length :=
            le_trans (List.filter_sublist _).length_le
              (List.dedup_sublist _).length_le
          have hmleB : ((answer_tokens prediction).dedup.filter
              (fun t => (answer_tokens gold).contains t)).length
                ≤ (answer_tokens gold).length := by
            have hnodupC : ((answer_tokens prediction).dedup.filter
                (fun t => (answer_tokens gold).contains t)).Nodup :=
              (List.nodup_dedup _).filter _
            have hsub : ∀ a ∈ (answer_tokens prediction).dedup.filter
                (fun t => (answer_tokens gold).contains t), a ∈ answer_tokens gold := by
              intro a ha
              have := (List.mem_filter.mp ha).2
              simpa using this
            have hcard : ((answer_tokens prediction).dedup.filter
                (fun t => (answer_tokens gold).contains t)).toFinset.card
                  = ((answer_tokens prediction).dedup.filter
                    (fun t => (answer_tokens gold).contains t)).length :=
              List.toFinset_card_of_nodup hnodupC
            have hss : ((answer_tokens prediction).dedup.filter
                (fun t => (answer_tokens gold).contains t)).toFinset
                  ⊆ (answer_tokens gold).toFinset := by
              intro a ha
              rw [List.mem_toFinset] at ha ⊢
              exact hsub a ha
            calc ((answer_tokens prediction).dedup.filter
                (fun t => (answer_tokens gold).contains t)).length
                = _ := hcard.symm
              _ ≤ (answer_tokens gold).toFinset.card := Finset.card_le_card hss
              _ ≤ (answer_tokens gold).length := (answer_tokens gold).toFinset_card_le
          have hAq : (0 : ℚ) < ((answer_tokens prediction).length : ℚ) := by
            have := List.length_pos.mpr hA
            exact_mod_cast this
          have hBq : (0 : ℚ) < ((answer_tokens gold).length : ℚ) := by
            have := List.length_pos.mpr hB
            exact_mod_cast this
          have hmq : (0 : ℚ) < (((answer_tokens prediction).dedup.filter
              (fun t => (answer_tokens gold).contains t)).length : ℚ) := by
            exact_mod_cast hm1
          exact harmonic_mean_bounds _ _ _ hmq hAq hBq
            (by exact_mod_cast hmleA) (by exact_mod_cast hmleB)
  · have hie : (answer_tokens x).isEmpty = false := by
      rw [Bool.eq_false_iff]
      intro hcon
      exact h1 (List.isEmpty_iff.mp hcon)
    have hcommon : ((answer_tokens x).dedup.filter
        (fun t => (answer_tokens x).contains t)) = answer_tokens x := by
      rw [List.dedup_eq_self.mpr h2]
      apply List.filter_eq_self.mpr
      intro a ha
      simpa using ha
    have hnq : ((answer_tokens x).length : ℚ) ≠ 0 := by
      have := List.length_pos.mpr h1
      positivity
    simp only [token_f1, hie, Bool.or_self, Bool.false_eq_true, if_false, hcommon]
    rw [div_self hnq]
    norm_num

/-- C3, witness: the theorem applied at prediction `dog`, gold `cat`, and
the duplicate-free self-scored string `nine cats`. -/
theorem tokenF1_bounds_and_nodup_self_witness :
    (0 ≤ token_f1 ("dog".toList) ("cat".toList) ∧
      token_f1 ("dog".toList) ("cat".toList) ≤ 1) ∧
    token_f1 ("nine cats".toList) ("nine cats".toList) = 1 :=
  tokenF1_bounds_and_nodup_self ("dog".toList) ("cat".toList) ("nine cats".toList)
    (by decide) (by decide)

/-
Claim C2.  The claim matches the evident intent of the code: the revert
branch of strategy_reduce_chunk_size (lines 144-148, with its message
`Build failed, reverted`) and the rc2 check of the Fix-5 block exist in the
source.  But the local helper `run(cmd, timeout=300, env=None)` accepts no
`cwd` keyword while both cargo-build calls pass `cwd=str(ROOT)`: each call
raises TypeError before any build, so the revert branch is dead code.  Once
either strategy has written mutated source, the loop crashes with the
mutated file on disk - the program cannot exhibit the claimed
revert-on-build-failure, nor even a completed failed build.
-/

set_option maxRecDepth 4000 in
/-- C2 (code_bug): evaluating the code at the failing inputs.  With
search.rs equal to the literal `chunk_text(&content, 1000)`, the strategy
writes the 500 replacement and then raises TypeError at its cargo-build call
- the revert branch never runs and the mutated content stays on disk.  With
prompts.rs equal to the old prompt line at iteration 2, the Fix-5 block
likewise raises after writing the revised prompt, never reaching its
build-result check.  In both cases the claimed restore-and-report-not-applied
behaviour is unreachable. -/
theorem rebuild_strategies_raise_leaving_mutation :
    strategy_reduce_chunk_size pat1000
      = ChunkStrategyOutcome.raisedTypeError pat500 ∧
    synthesis_fix_step 2 synthOld = SynthFixOutcome.raisedTypeError synthNew := by
  constructor
  · decide
  · decide

/-
Claim C5.  A completed engine invocation with non-zero exit or the not-found
sentinel in stdout is normalised to the empty prediction, but `ask_engram`
contains no try/except: when the 30-second timeout expires, `subprocess.run`
raises `TimeoutExpired` and the exception propagates out of the wrapper and
aborts the evaluation pass.
-/

/-- C5, counterexample: an invocation hung beyond its timeout does propagate
an exception out of the ask wrapper (TimeoutExpired from `subprocess.run`),
rather than being absorbed as an empty prediction. -/
theorem ask_engram_timeout_raises :
    ask_engram ProcOutcome.timedOut = Except.error () := rfl

/-- C5 (corrected): for every completed invocation of the engine ask
command, a non-zero exit code or stdout containing the not-found sentinel
yields the empty-string prediction; but a timeout is not absorbed - it
raises out of the wrapper (see the counterexample), so the no-exception part
of the claim holds only for invocations that complete. -/
theorem ask_engram_failure_normalization (rc : ℤ) (out : List Char)
    (h : rc ≠ 0 ∨ containsSub notFoundSentinel out = true) :
    ask_engram (ProcOutcome.completed rc out) = Except.ok [] := by
  have hcond : (rc != 0 || containsSub notFoundSentinel out) = true := by
    rcases h with h | h
    · simp [h]
    · simp [h]
  simp [ask_engram, hcond]

/-- C5, witness: the theorem applied at exit code 1 with empty stdout. -/
theorem ask_engram_failure_normalization_witness :
    ask_engram (ProcOutcome.completed 1 []) = Except.ok [] :=
  ask_engram_failure_normalization 1 [] (Or.inl (by norm_num))

/-
Claim C6.  `llm_judge` returns 0.0 before building the prompt or calling
`gemini_call` whenever the prediction is empty or contains the sentinel.
-/

/-- C6 (confirmed): for every triple, if the prediction is empty or contains
the not-found sentinel, `llm_judge` returns 0.0 and the remote model is not
called (the second component records whether `gemini_call` ran). -/
theorem llm_judge_short_circuit (gemini : List Char → List Char)
    (question gold prediction : List Char)
    (h : prediction = [] ∨ containsSub notFoundSentinel prediction = true) :
    llm_judge gemini question gold prediction = (0, false) := by
  unfold llm_judge
  have hcond : (prediction.isEmpty || containsSub notFoundSentinel prediction) = true := by
    rcases h with h | h
    · simp [h]
    · simp [h]
  rw [if_pos hcond]

/-- C6, witness: the theorem applied to the empty prediction with a remote
model that would answer YES. -/
theorem llm_judge_short_circuit_witness :
    llm_judge (fun _ => "YES".toList) ("q".toList) ("g".toList) [] = (0, false) :=
  llm_judge_short_circuit (fun _ => "YES".toList) ("q".toList) ("g".toList) []
    (Or.inl rfl)

/-
Claim C7.  The code guards the raise-top-k strategy with `top_k < 20` while
clamping with `min(24, ...)`: the guard bound and the clamp ceiling differ,
so at top_k = 20..23 (below the 24 ceiling, reachable: 12 → 16 → 20) the
strategy does not fire even though the score is below target*0.9.
-/

/-- C7, counterexample: at top_k = 20 - strictly below the clamp ceiling 24,
and reachable from the start value 12 by two +4 steps - with judge score 0
below target*0.9 (target 13.5), the strategy leaves top_k unchanged instead
of firing. -/
theorem topk_strategy_idle_below_24 :
    (20 : ℕ) < 24 ∧ (0 : ℚ) < (27 / 2) * (9 / 10) ∧
      topkFix 20 0 (27 / 2) = (20, false) := by
  refine ⟨by norm_num, by norm_num, ?_⟩
  unfold topkFix
  rw [if_neg]
  intro hcontra
  exact absurd hcontra.1 (by norm_num)

/-- C7 (corrected): the raise-top-k strategy fires exactly when
`top_k < 20` (the guard constant, strictly below the clamp ceiling 24) and
the current judge score is below target*0.9; it then sets top_k to
`min(24, top_k + 4)`, and in every other state leaves top_k unchanged. -/
theorem topk_fix_step_closed_form (k : ℕ) (j t : ℚ) :
    topkFix k j t =
      if k < 20 ∧ j < t * (9 / 10) then (min 24 (k + 4), true) else (k, false) := by
  unfold topkFix strategy_increase_topk
  split
  · rename_i hk
    rw [if_pos (by omega : min 24 (k + 4) ≠ k)]
  · rfl

/-
Claims C9 and C10: the control loop.
-/

/-- The three possible result states of one loop iteration: unchanged (eval
failure), history extended with the tuning surface unchanged (target
reached), or history extended and the tuning surface updated by fixes 1 and
2 (however the iteration then ended: clean continue, clean break, or a
TypeError crash at a cargo-build call - both build crashes happen after the
fixes 1-2 updates). -/
theorem iter_step_shape (target : ℚ) (env : IterEnv) (i : ℕ) (st : LoopState) :
    (iter_step target env i st).2 = st ∨
    (iter_step target env i st).2 =
      ⟨st.threshold, st.top_k,
       st.history ++ [⟨i, env.f1, env.judge, st.threshold, st.top_k⟩]⟩ ∨
    (iter_step target env i st).2 =
      ⟨(thresholdFix st.threshold).1, (topkFix st.top_k env.judge target).1,
       st.history ++ [⟨i, env.f1, env.judge, st.threshold, st.top_k⟩]⟩ := by
  unfold iter_step
  repeat' split
  all_goals first
    | exact Or.inl rfl
    | exact Or.inr (Or.inl rfl)
    | exact Or.inr (Or.inr rfl)

/-- One iteration grows the history by at most one row. -/
theorem iter_step_history_len (target : ℚ) (env : IterEnv) (i : ℕ) (st : LoopState) :
    ((iter_step target env i st).2).history.length ≤ st.history.length + 1 := by
  rcases iter_step_shape target env i st with hs | hs | hs <;> rw [hs] <;> simp

/-- The loop runner grows the history by at most its remaining fuel. -/
theorem loop_go_history_len (target : ℚ) (env : ℕ → IterEnv) :
    ∀ (fuel i : ℕ) (st : LoopState),
      (loop_go target env fuel i st).history.length ≤ st.history.length + fuel := by
  intro fuel
  induction fuel with
  | zero => intro i st; simp [loop_go]
  | succ f ih =>
    intro i st
    simp only [loop_go]
    split
    · exact le_trans (ih (i + 1) (iter_step target (env i) i st).2)
        (by have := iter_step_history_len target (env i) i st; omega)
    · exact le_trans (iter_step_history_len target (env i) i st) (by omega)

/-- C9 (confirmed): the improvement loop always terminates - it is a
`for iteration in range(1, max_iterations + 1)` loop, modelled with fuel
`max_iterations` - and it executes (and records in its history) at most
`max_iterations` iterations, whatever the eval outcomes, scores and build
results are, in particular when the target judge score is never reached. -/
theorem improvement_loop_terminates (max_iterations : ℕ) (target_judge : ℚ)
    (env : ℕ → IterEnv) :
    (improvement_loop max_iterations target_judge env).history.length ≤ max_iterations := by
  have h := loop_go_history_len target_judge env max_iterations 1 ⟨15 / 100, 12, []⟩
  simpa [improvement_loop] using h

/-- Appending a row dominated by every existing row keeps the monotonicity
chain intact. -/
theorem chainOK_append_singleton :
    ∀ (h : List HistEntry) (x : HistEntry), chainOK h = true →
      (∀ e ∈ h, x.threshold ≤ e.threshold ∧ e.top_k ≤ x.top_k) →
      chainOK (h ++ [x]) = true := by
  intro h
  induction h with
  | nil => intro x _ _; rfl
  | cons a t ih =>
    intro x hc hall
    cases t with
    | nil =>
      have ha := hall a (by simp)
      simp only [List.cons_append, List.nil_append, chainOK, Bool.and_eq_true,
        decide_eq_true_eq]
      exact ⟨⟨ha.1, ha.2⟩, trivial⟩
    | cons b rest =>
      simp only [List.cons_append, chainOK, Bool.and_eq_true, decide_eq_true_eq] at hc ⊢
      refine ⟨hc.1, ?_⟩
      have := ih x hc.2 (fun e he => hall e (List.mem_cons_of_mem a he))
      simpa only [List.cons_append, chainOK, Bool.and_eq_true, decide_eq_true_eq] using this

/-- Fix 1 keeps the threshold between 0.05 and its previous value. -/
theorem thresholdFix_bounds (t : ℚ) (h : 1 / 20 ≤ t) :
    1 / 20 ≤ (thresholdFix t).1 ∧ (thresholdFix t).1 ≤ t := by
  unfold thresholdFix strategy_lower_threshold
  split
  · split
    · constructor
      · exact le_trans (by norm_num) (le_max_left _ _)
      · apply max_le
        · linarith
        · linarith
    · exact ⟨h, le_refl t⟩
  · exact ⟨h, le_refl t⟩

/-- Fix 2 keeps top_k between its previous value and 24. -/
theorem topkFix_bounds (k : ℕ) (j t : ℚ) (h : k ≤ 24) :
    k ≤ (topkFix k j t).1 ∧ (topkFix k j t).1 ≤ 24 := by
  unfold topkFix strategy_increase_topk
  split
  · split
    · constructor
      · simp only []
        omega
      · simp only []
        omega
    · exact ⟨le_refl k, h⟩
  · exact ⟨le_refl k, h⟩

/-- The loop invariant for C10: the tuning surface stays inside its bounds,
every recorded row stays inside the bounds, rows are chain-monotone, and the
current surface is dominated by every recorded row. -/
def LoopInv (st : LoopState) : Prop :=
  1 / 20 ≤ st.threshold ∧ st.top_k ≤ 24 ∧ chainOK st.history = true ∧
  ∀ e ∈ st.history,
    (1 / 20 ≤ e.threshold ∧ e.top_k ≤ 24) ∧
    (st.threshold ≤ e.threshold ∧ e.top_k ≤ st.top_k)

/-- One loop iteration preserves the C10 invariant. -/
theorem iter_step_inv (target : ℚ) (env : IterEnv) (i : ℕ) (st : LoopState)
    (h : LoopInv st) : LoopInv (iter_step target env i st).2 := by
  obtain ⟨ht, hk, hchain, hall⟩ := h
  have hchain1 : chainOK (st.history ++
      [⟨i, env.f1, env.judge, st.threshold, st.top_k⟩]) = true := by
    apply chainOK_append_singleton st.history _ hchain
    intro e he
    exact ⟨(hall e he).2.1, (hall e he).2.2⟩
  have hmem : ∀ e ∈ st.history ++ [(⟨i, env.f1, env.judge, st.threshold, st.top_k⟩ : HistEntry)],
      (1 / 20 ≤ e.threshold ∧ e.top_k ≤ 24) ∧
      (st.threshold ≤ e.threshold ∧ e.top_k ≤ st.top_k) := by
    intro e he
    rcases List.mem_append.mp he with he | he
    · exact hall e he
    · have : e = ⟨i, env.f1, env.judge, st.threshold, st.top_k⟩ := by simpa using he
      subst this
      exact ⟨⟨ht, hk⟩, ⟨le_refl _, le_refl _⟩⟩
  have htf := thresholdFix_bounds st.threshold ht
  have hkf := topkFix_bounds st.top_k env.judge target hk
  rcases iter_step_shape target env i st with hs | hs | hs <;> rw [hs]
  · exact ⟨ht, hk, hchain, hall⟩
  · exact ⟨ht, hk, hchain1, hmem⟩
  · refine ⟨htf.1, hkf.2, hchain1, ?_⟩
    intro e he
    have := hmem e he
    exact ⟨this.1, ⟨le_trans htf.2 this.2.1, le_trans this.2.2 hkf.1⟩⟩

/-- The loop runner preserves the C10 invariant. -/
theorem loop_go_inv (target : ℚ) (env : ℕ → IterEnv) :
    ∀ (fuel i : ℕ) (st : LoopState), LoopInv st → LoopInv (loop_go target env fuel i st) := by
  intro fuel
  induction fuel with
  | zero => intro i st h; simpa [loop_go] using h
  | succ f ih =>
    intro i st h
    simp only [loop_go]
    split
    · exact ih (i + 1) _ (iter_step_inv target (env i) i st h)
    · exact iter_step_inv target (env i) i st h

/-- C10 (confirmed): across every run of the improvement loop - whatever the
eval outcomes, scores, file contents and build results - the recorded
threshold sequence is monotonically non-increasing and never falls below
0.05, and the recorded top_k sequence is monotonically non-decreasing and
never exceeds 24; the final tuning surface obeys the same bounds.  The only
updates the loop applies are `max(0.05, threshold - 0.03)` guarded by
`threshold > 0.07` (fix 1) and `min(24, top_k + 4)` guarded by `top_k < 20`
(fix 2), as `iter_step` records. -/
theorem loop_threshold_topk_invariants (max_iterations : ℕ) (target_judge : ℚ)
    (env : ℕ → IterEnv) :
    chainOK (improvement_loop max_iterations target_judge env).history = true ∧
    ((improvement_loop max_iterations target_judge env).history.all
      (fun e => decide (1 / 20 ≤ e.threshold) && decide (e.top_k ≤ 24))) = true ∧
    1 / 20 ≤ (improvement_loop max_iterations target_judge env).threshold ∧
    (improvement_loop max_iterations target_judge env).top_k ≤ 24 := by
  have h0 : LoopInv ⟨15 / 100, 12, []⟩ := by
    refine ⟨by norm_num, by norm_num, rfl, ?_⟩
    intro e he
    simp at he
  have h := loop_go_inv target_judge env max_iterations 1 ⟨15 / 100, 12, []⟩ h0
  obtain ⟨ht, hk, hchain, hall⟩ := h
  refine ⟨hchain, ?_, ht, hk⟩
  rw [List.all_eq_true]
  intro e he
  have := hall e he
  simp only [Bool.and_eq_true, decide_eq_true_eq]
  exact ⟨this.1.1, this.1.2⟩

/-
Claim C8: overall scores are weighted averages over the categories present.
-/

/-- The total weight `Σ n_cat` over the per-category entries of a run. -/
def catWeights (m : List (List Char × List ℚ)) : ℚ :=
  (m.map (fun e => ((e.2.length : ℕ) : ℚ))).sum

/-- The weighted sum `Σ n_cat * avg_cat` over the per-category entries. -/
def weightedCatSum (m : List (List Char × List ℚ)) : ℚ :=
  (m.map (fun e => ((e.2.length : ℕ) : ℚ) * _avg e.2)).sum

/-- Unfolding equation of `addScore` when the head key matches. -/
theorem addScore_cons_pos (e : List Char × List ℚ) (rest : List (List Char × List ℚ))
    (cat : List Char) (x : ℚ) (h : (e.1 == cat) = true) :
    addScore (e :: rest) cat x = (e.1, e.2 ++ [x]) :: rest := by
  unfold addScore
  rw [if_pos h]

/-- Unfolding equation of `addScore` when the head key does not match. -/
theorem addScore_cons_neg (e : List Char × List ℚ) (rest : List (List Char × List ℚ))
    (cat : List Char) (x : ℚ) (h : ¬((e.1 == cat) = true)) :
    addScore (e :: rest) cat x = e :: addScore rest cat x := by
  simp only [addScore]
  rw [if_neg h]

/-- Appending one score adds one to the total count. -/
theorem addScore_len_sum (m : List (List Char × List ℚ)) (cat : List Char) (x : ℚ) :
    ((addScore m cat x).map (fun e => e.2.length)).sum
      = (m.map (fun e => e.2.length)).sum + 1 := by
  induction m with
  | nil => simp [addScore]
  | cons e rest ih =>
    by_cases hcase : (e.1 == cat) = true
    · rw [addScore_cons_pos e rest cat x hcase]
      simp only [List.map_cons, List.sum_cons, List.length_append, List.length_cons,
        List.length_nil]
      omega
    · rw [addScore_cons_neg e rest cat x hcase]
      simp only [List.map_cons, List.sum_cons, ih]
      omega

/-- Appending one score adds it to the total score sum. -/
theorem addScore_score_sum (m : List (List Char × List ℚ)) (cat : List Char) (x : ℚ) :
    ((addScore m cat x).map (fun e => e.2.sum)).sum
      = (m.map (fun e => e.2.sum)).sum + x := by
  induction m with
  | nil => simp [addScore]
  | cons e rest ih =>
    by_cases hcase : (e.1 == cat) = true
    · rw [addScore_cons_pos e rest cat x hcase]
      simp only [List.map_cons, List.sum_cons, List.sum_append, List.sum_nil]
      ring
    · rw [addScore_cons_neg e rest cat x hcase]
      simp only [List.map_cons, List.sum_cons, ih]
      ring

/-- `addScore` never creates an empty per-category list. -/
theorem addScore_nonempty :
    ∀ (m : List (List Char × List ℚ)) (cat : List Char) (x : ℚ),
      (∀ e ∈ m, e.2 ≠ []) → ∀ e ∈ addScore m cat x, e.2 ≠ [] := by
  intro m cat x
  induction m with
  | nil =>
    intro _ e he
    have : e = (cat, [x]) := by simpa [addScore] using he
    subst this
    simp
  | cons a rest ih =>
    intro h e he
    by_cases hcase : (a.1 == cat) = true
    · rw [addScore_cons_pos a rest cat x hcase] at he
      rcases List.mem_cons.mp he with he | he
      · subst he
        simp
      · exact h e (List.mem_cons_of_mem a he)
    · rw [addScore_cons_neg a rest cat x hcase] at he
      rcases List.mem_cons.mp he with he | he
      · rw [he]
        exact h a (List.mem_cons_self a rest)
      · exact ih (fun e' he' => h e' (List.mem_cons_of_mem a he')) e he

/-- A key present after `addScore` was present before or is the added one. -/
theorem addScore_keys :
    ∀ (m : List (List Char × List ℚ)) (cat : List Char) (x : ℚ),
      ∀ a ∈ (addScore m cat x).map Prod.fst, a ∈ m.map Prod.fst ∨ a = cat := by
  intro m cat x
  induction m with
  | nil =>
    intro a ha
    have : a = cat := by simpa [addScore] using ha
    exact Or.inr this
  | cons e rest ih =>
    intro a ha
    by_cases hcase : (e.1 == cat) = true
    · rw [addScore_cons_pos e rest cat x hcase] at ha
      simp only [List.map_cons] at ha
      rcases List.mem_cons.mp ha with ha | ha
      · exact Or.inl (by rw [List.map_cons, ha]; exact List.mem_cons_self _ _)
      · exact Or.inl (by rw [List.map_cons]; exact List.mem_cons_of_mem _ ha)
    · rw [addScore_cons_neg e rest cat x hcase] at ha
      simp only [List.map_cons] at ha
      rcases List.mem_cons.mp ha with ha | ha
      · exact Or.inl (by rw [List.map_cons, ha]; exact List.mem_cons_self _ _)
      · rcases ih a ha with h' | h'
        · exact Or.inl (by rw [List.map_cons]; exact List.mem_cons_of_mem _ h')
        · exact Or.inr h'

/-- Folding the items keeps the total count equal to the item count. -/
theorem runAggAux_len_sum :
    ∀ (items : List (List Char × ℚ)) (m : List (List Char × List ℚ)),
      ((items.foldl (fun m i => addScore m i.1 i.2) m).map (fun e => e.2.length)).sum
        = (m.map (fun e => e.2.length)).sum + items.length := by
  intro items
  induction items with
  | nil => intro m; simp
  | cons it rest ih =>
    intro m
    simp only [List.foldl_cons, List.length_cons]
    rw [ih (addScore m it.1 it.2), addScore_len_sum]
    omega

/-- Folding the items keeps the total score sum equal to the items' sum. -/
theorem runAggAux_score_sum :
    ∀ (items : List (List Char × ℚ)) (m : List (List Char × List ℚ)),
      ((items.foldl (fun m i => addScore m i.1 i.2) m).map (fun e => e.2.sum)).sum
        = (m.map (fun e => e.2.sum)).sum + (items.map Prod.snd).sum := by
  intro items
  induction items with
  | nil => intro m; simp
  | cons it rest ih =>
    intro m
    simp only [List.foldl_cons, List.map_cons, List.sum_cons]
    rw [ih (addScore m it.1 it.2), addScore_score_sum]
    ring

/-- Folding the items never creates an empty per-category list. -/
theorem runAggAux_nonempty :
    ∀ (items : List (List Char × ℚ)) (m : List (List Char × List ℚ)),
      (∀ e ∈ m, e.2 ≠ []) →
      ∀ e ∈ items.foldl (fun m i => addScore m i.1 i.2) m, e.2 ≠ [] := by
  intro items
  induction items with
  | nil => intro m h; simpa using h
  | cons it rest ih =>
    intro m h
    simp only [List.foldl_cons]
    exact ih (addScore m it.1 it.2) (addScore_nonempty m it.1 it.2 h)

/-- A key present after folding was present initially or belongs to an item. -/
theorem runAggAux_keys :
    ∀ (items : List (List Char × ℚ)) (m : List (List Char × List ℚ)),
      ∀ a ∈ (items.foldl (fun m i => addScore m i.1 i.2) m).map Prod.fst,
        a ∈ m.map Prod.fst ∨ a ∈ items.map Prod.fst := by
  intro items
  induction items with
  | nil => intro m a ha; exact Or.inl (by simpa using ha)
  | cons it rest ih =>
    intro m a ha
    simp only [List.foldl_cons] at ha
    rcases ih (addScore m it.1 it.2) a ha with h' | h'
    · rcases addScore_keys m it.1 it.2 a h' with h'' | h''
      · exact Or.inl h''
      · exact Or.inr (by rw [List.map_cons, h'']; exact List.mem_cons_self _ _)
    · exact Or.inr (by rw [List.map_cons]; exact List.mem_cons_of_mem _ h')

/-- C8 (confirmed): the overall score of a run is the weighted average - weighted
by the per-category item count n - of the per-category averages over all
categories present in the run (the statement instantiates to both
`overall_f1` and `overall_judge`, which are built by the same `_avg` over
the same aggregation); nothing is imputed for absent categories, and a
category with no scored items in the run is omitted from `by_category`. -/
theorem overall_weighted_average_and_omission (items : List (List Char × ℚ))
    (cats : List (List Char)) (judgeagg : List (List Char × List ℚ)) (c : List Char)
    (hne : items ≠ []) (hc : c ∉ items.map Prod.fst) :
    overall (runAgg items) = weightedCatSum (runAgg items) / catWeights (runAgg items) ∧
    c ∉ (by_category cats (runAgg items) judgeagg).map (fun e => e.1) := by
  constructor
  · have hlen : ((runAgg items).map (fun e => e.2.length)).sum = items.length := by
      simpa using runAggAux_len_sum items []
    have hsum : ((runAgg items).map (fun e => e.2.sum)).sum = (items.map Prod.snd).sum := by
      simpa using runAggAux_score_sum items []
    have hnonempty : ∀ e ∈ runAgg items, e.2 ≠ [] :=
      runAggAux_nonempty items [] (by intro e he; simp at he)
    have hflatsum : (((runAgg items).map Prod.snd).flatten).sum
        = (items.map Prod.snd).sum := by
      rw [List.sum_flatten, List.map_map]
      exact hsum
    have hflatlen : (((runAgg items).map Prod.snd).flatten).length = items.length := by
      rw [List.length_flatten, List.map_map]
      exact hlen
    have hpos : 0 < items.length := List.length_pos.mpr hne
    have hflatne : ¬((((runAgg items).map Prod.snd).flatten).isEmpty = true) := by
      rw [List.isEmpty_iff_length_eq_zero, hflatlen]
      omega
    have hw : weightedCatSum (runAgg items)
        = ((runAgg items).map (fun e => e.2.sum * 100)).sum := by
      unfold weightedCatSum
      congr 1
      apply List.map_congr_left
      intro e he
      have hne' : e.2 ≠ [] := hnonempty e he
      have hlne : ((e.2.length : ℕ) : ℚ) ≠ 0 := by
        have : 0 < e.2.length := List.length_pos.mpr hne'
        positivity
      unfold _avg
      rw [if_neg (by simpa [List.isEmpty_iff] using hne')]
      field_simp
    have hcast : ∀ (m : List (List Char × List ℚ)),
        (m.map (fun e => ((e.2.length : ℕ) : ℚ))).sum
          = (((m.map (fun e => e.2.length)).sum : ℕ) : ℚ) := by
      intro m
      induction m with
      | nil => simp
      | cons a t ih => simp [ih]
    have hsum100 : ∀ (m : List (List Char × List ℚ)),
        (m.map (fun e => e.2.sum * 100)).sum
          = (m.map (fun e => e.2.sum)).sum * 100 := by
      intro m
      induction m with
      | nil => simp
      | cons a t ih =>
        simp only [List.map_cons, List.sum_cons, ih]
        ring
    unfold overall _avg catWeights
    rw [if_neg hflatne, hw, hsum100, hflatsum, hflatlen, hcast, hlen, hsum]
    have hlq : ((items.length : ℕ) : ℚ) ≠ 0 := by positivity
    field_simp
  · intro hmem
    unfold by_category at hmem
    rw [List.map_map] at hmem
    rcases List.mem_map.mp hmem with ⟨cat, hcatmem, hcateq⟩
    have hceq : cat = c := by simpa using hcateq
    subst hceq
    have hfilter := List.mem_filter.mp hcatmem
    have hlook : ¬((lookupScores (runAgg items) cat).isEmpty = true) := by
      simpa using hfilter.2
    unfold lookupScores at hlook
    rcases hfind : (runAgg items).find? (fun e => e.1 == cat) with _ | e
    · rw [hfind] at hlook
      simp at hlook
    · have hmem' : e ∈ runAgg items := List.mem_of_find?_eq_some hfind
      have heq : e.1 = cat := by
        have := List.find?_some hfind
        simpa using this
      have hkey : e.1 ∈ ([] : List (List Char × List ℚ)).map Prod.fst ∨
          e.1 ∈ items.map Prod.fst := by
        apply runAggAux_keys items []
        exact List.mem_map_of_mem Prod.fst hmem'
      rcases hkey with h' | h'
      · simp at h'
      · rw [heq] at h'
        exact hc h'

/-- C8, witness: two scored items in category `bugs`, requested categories
`bugs` and `decisions`; the overall score is the weighted average and the
scoreless category `decisions` is omitted from `by_category`. -/
theorem overall_weighted_average_and_omission_witness :
    overall (runAgg [("bugs".toList, 1), ("bugs".toList, (1 : ℚ) / 2)])
        = weightedCatSum (runAgg [("bugs".toList, 1), ("bugs".toList, (1 : ℚ) / 2)])
          / catWeights (runAgg [("bugs".toList, 1), ("bugs".toList, (1 : ℚ) / 2)]) ∧
    "decisions".toList ∉
      (by_category ["bugs".toList, "decisions".toList]
        (runAgg [("bugs".toList, 1), ("bugs".toList, (1 : ℚ) / 2)]) []).map
        (fun e => e.1) :=
  overall_weighted_average_and_omission
    [("bugs".toList, 1), ("bugs".toList, (1 : ℚ) / 2)]
    ["bugs".toList, "decisions".toList] [] ("decisions".toList)
    (by decide) (by decide)

/-
Claim C4: idempotence of `normalize_answer`.  The underscore is a regex word
character (so `\b(a|an|the|and)\b` does not fire inside `_and_`) that the
later `[^a-z0-9 ]` pass strips, which can expose a fresh stop word: the
output of `normalize_answer` on `_and_` is `and`, which a second pass then
deletes.  Idempotence does hold for ASCII inputs free of underscores, proved
below by showing the output is a space-join of non-empty, lower-alphanumeric,
non-stop-word tokens, and that such strings are fixed points of every stage.
-/

/-- `Char.toNat` is injective. -/
theorem char_toNat_inj (a b : Char) (h : a.toNat = b.toNat) : a = b := by
  have hh := Char.ofNat_toNat a
  rw [h, Char.ofNat_toNat] at hh
  exact hh.symm

/-- `Char.ofNat` inverts `toNat` below the surrogate range. -/
theorem toNat_ofNat_valid (n : ℕ) (h : n < 55296) : (Char.ofNat n).toNat = n := by
  have hv : n.isValidChar := Or.inl (by omega)
  simp only [Char.ofNat, dif_pos hv]
  rfl

/-- Character equality through code points. -/
theorem char_eq_iff_toNat (a b : Char) : a = b ↔ a.toNat = b.toNat :=
  ⟨fun h => by rw [h], char_toNat_inj a b⟩

/-- Code-point characterisation of `isLcAlnum`. -/
theorem isLcAlnum_iff (c : Char) : isLcAlnum c = true ↔
    (97 ≤ c.toNat ∧ c.toNat ≤ 122) ∨ (48 ≤ c.toNat ∧ c.toNat ≤ 57) := by
  simp [isLcAlnum, isLowerAZ, isDigit09]

/-- Code-point characterisation of `isWordChar`. -/
theorem isWordChar_iff (c : Char) : isWordChar c = true ↔
    (97 ≤ c.toNat ∧ c.toNat ≤ 122) ∨ (65 ≤ c.toNat ∧ c.toNat ≤ 90) ∨
    (48 ≤ c.toNat ∧ c.toNat ≤ 57) ∨ c.toNat = 95 := by
  simp only [isWordChar, isLowerAZ, isUpperAZ, isDigit09, Bool.or_eq_true,
    Bool.and_eq_true, decide_eq_true_eq, beq_iff_eq, char_eq_iff_toNat,
    show ('_').toNat = 95 from rfl]
  tauto

/-- Code-point characterisation of `isWS`. -/
theorem isWS_iff (c : Char) : isWS c = true ↔
    c.toNat = 32 ∨ c.toNat = 9 ∨ c.toNat = 10 ∨ c.toNat = 13 ∨
    c.toNat = 11 ∨ c.toNat = 12 := by
  simp only [isWS, Bool.or_eq_true, beq_iff_eq, char_eq_iff_toNat,
    show (' ').toNat = 32 from rfl, show ('\t').toNat = 9 from rfl,
    show ('\n').toNat = 10 from rfl, show ('\r').toNat = 13 from rfl,
    show ('\x0b').toNat = 11 from rfl, show ('\x0c').toNat = 12 from rfl]
  tauto

/-- Lower-case alphanumerics are regex word characters. -/
theorem lcAlnum_word (c : Char) (h : isLcAlnum c = true) : isWordChar c = true := by
  rw [isWordChar_iff]
  rw [isLcAlnum_iff] at h
  omega

/-- Lower-case alphanumerics are not whitespace. -/
theorem lcAlnum_not_ws (c : Char) (h : isLcAlnum c = true) : isWS c = false := by
  rw [Bool.eq_false_iff]
  intro hws
  rw [isWS_iff] at hws
  rw [isLcAlnum_iff] at h
  omega

/-- The strip stage keeps `[a-z0-9]` characters. -/
theorem stripChar_lcAlnum (c : Char) (h : isLcAlnum c = true) : stripChar c = c := by
  simp [stripChar, h]

/-- The strip stage keeps the space character. -/
theorem stripChar_space : stripChar ' ' = ' ' := by decide

/-- The strip stage sends every non-word character to a space: such a
character is not in `[a-z0-9]`, and if it is not the space itself it is
replaced by one. -/
theorem stripChar_nonword (c : Char) (h : isWordChar c = false) : stripChar c = ' ' := by
  by_cases hsp : c = ' '
  · rw [hsp]
    exact stripChar_space
  · unfold stripChar
    rw [if_neg]
    intro hcon
    rcases (show isLcAlnum c = true ∨ (c == ' ') = true by simpa using hcon) with h1 | h1
    · rw [lcAlnum_word c h1] at h
      exact absurd h (by simp)
    · exact hsp (by simpa using h1)

/-- Lowercasing keeps `[a-z0-9]` characters. -/
theorem pyLower_lcAlnum (c : Char) (h : isLcAlnum c = true) : pyLower c = c := by
  unfold pyLower
  rw [if_neg]
  intro hu
  rw [isLcAlnum_iff] at h
  simp only [isUpperAZ, Bool.and_eq_true, decide_eq_true_eq] at hu
  omega

/-- Lowercasing keeps the space character. -/
theorem pyLower_space : pyLower ' ' = ' ' := by decide

/-- Lowercasing an upper-case ASCII letter adds 32 to its code point. -/
theorem upper_pyLower_toNat (c : Char) (h : isUpperAZ c = true) :
    (pyLower c).toNat = c.toNat + 32 := by
  unfold pyLower
  rw [if_pos h]
  apply toNat_ofNat_valid
  simp only [isUpperAZ, Bool.and_eq_true, decide_eq_true_eq] at h
  omega

/-- After lowercasing a non-underscore character, every word character is a
lower-case alphanumeric: upper-case letters became lower-case letters, and
the only other non-`[a-z0-9]` word character is the underscore itself. -/
theorem pyLower_word_class (c : Char) (hne : ¬(c = '_'))
    (hw : isWordChar (pyLower c) = true) : isLcAlnum (pyLower c) = true := by
  by_cases hu : isUpperAZ c = true
  · have ht := upper_pyLower_toNat c hu
    simp only [isUpperAZ, Bool.and_eq_true, decide_eq_true_eq] at hu
    rw [isLcAlnum_iff]
    omega
  · have hid : pyLower c = c := by
      unfold pyLower
      rw [if_neg hu]
    rw [hid] at hw ⊢
    rw [isWordChar_iff] at hw
    rw [isLcAlnum_iff]
    have hne' : ¬(c.toNat = 95) := fun hcon => hne (char_toNat_inj c '_' hcon)
    have hu' : ¬(65 ≤ c.toNat ∧ c.toNat ≤ 90) := by
      intro hcon
      exact absurd (by simp [isUpperAZ]; omega : isUpperAZ c = true) hu
    omega

/-- `takeWhile` passes over a prefix on which the predicate holds. -/
theorem takeWhile_append_of_all (p : Char → Bool) :
    ∀ (l r : List Char), (∀ a ∈ l, p a = true) →
      (l ++ r).takeWhile p = l ++ r.takeWhile p := by
  intro l
  induction l with
  | nil => intro r _; simp
  | cons a t ih =>
    intro r h
    rw [List.cons_append, List.takeWhile_cons_of_pos (h a (List.mem_cons_self a t)),
      ih r (fun b hb => h b (List.mem_cons_of_mem a hb)), List.cons_append]

/-- `dropWhile` consumes a prefix on which the predicate holds. -/
theorem dropWhile_append_of_all (p : Char → Bool) :
    ∀ (l r : List Char), (∀ a ∈ l, p a = true) →
      (l ++ r).dropWhile p = r.dropWhile p := by
  intro l
  induction l with
  | nil => intro r _; simp
  | cons a t ih =>
    intro r h
    rw [List.cons_append, List.dropWhile_cons_of_pos (h a (List.mem_cons_self a t)),
      ih r (fun b hb => h b (List.mem_cons_of_mem a hb))]

/-- `takeWhile` keeps a list on which the predicate holds everywhere. -/
theorem takeWhile_of_all (p : Char → Bool) :
    ∀ (l : List Char), (∀ a ∈ l, p a = true) → l.takeWhile p = l := by
  intro l h
  have := takeWhile_append_of_all p l [] h
  simpa using this

/-- `dropWhile` empties a list on which the predicate holds everywhere. -/
theorem dropWhile_of_all (p : Char → Bool) :
    ∀ (l : List Char), (∀ a ∈ l, p a = true) → l.dropWhile p = [] := by
  intro l h
  have := dropWhile_append_of_all p l [] h
  simpa using this

/-- The head surviving `dropWhile` falsifies the predicate. -/
theorem dropWhile_head_false (p : Char → Bool) :
    ∀ (l : List Char) (x : Char) (rs : List Char),
      l.dropWhile p = x :: rs → p x = false := by
  intro l
  induction l with
  | nil =>
    intro x rs h
    simp at h
  | cons a t ih =>
    intro x rs h
    by_cases hp : p a = true
    · rw [List.dropWhile_cons_of_pos hp] at h
      exact ih x rs h
    · rw [List.dropWhile_cons_of_neg hp] at h
      injection h with h1 _
      rw [← h1]
      exact Bool.eq_false_iff.mpr hp

/-- `splitWs` peels off a leading non-whitespace run followed by nothing or
by whitespace. -/
theorem splitWs_append_run (w r : List Char) (hw : w ≠ [])
    (hnws : ∀ c ∈ w, isWS c = false)
    (hr : r = [] ∨ ∃ x rs, r = x :: rs ∧ isWS x = true) :
    splitWs (w ++ r) = w :: splitWs r := by
  match w with
  | c :: cs =>
    have hcw : isWS c = false := hnws c (List.mem_cons_self c cs)
    rw [List.cons_append, splitWs_cons_nonws c (cs ++ r) hcw]
    have hall : ∀ a ∈ cs, (fun d => !isWS d) a = true := by
      intro a ha
      simp [hnws a (List.mem_cons_of_mem c ha)]
    have hrt : r.takeWhile (fun d => !isWS d) = [] := by
      rcases hr with hr | ⟨x, rs, hr, hx⟩
      · rw [hr]
        rfl
      · rw [hr]
        exact List.takeWhile_cons_of_neg (by simp [hx])
    have hrd : r.dropWhile (fun d => !isWS d) = r := by
      rcases hr with hr | ⟨x, rs, hr, hx⟩
      · rw [hr]
        rfl
      · rw [hr]
        exact List.dropWhile_cons_of_neg (by simp [hx])
    rw [takeWhile_append_of_all _ cs r hall, dropWhile_append_of_all _ cs r hall,
      hrt, hrd, List.append_nil]

/-- A good token: non-empty, all characters in `[a-z0-9]`, not a stop word.
The output of `normalize_answer` on an underscore-free ASCII input is a
space-join of good tokens. -/
def GoodTok (t : List Char) : Prop :=
  t ≠ [] ∧ (∀ c ∈ t, isLcAlnum c = true) ∧ isStop t = false

/-- Core run analysis: if every word character of `t` is a lower-case
alphanumeric (true after lowercasing an underscore-free string), then the
tokens surviving the stop-word and strip stages are exactly the non-stop
maximal word runs of `t`: non-empty, lower-alphanumeric, and not stop
words. -/
theorem goodRuns :
    ∀ (n : ℕ) (t : List Char), t.length ≤ n →
      (∀ c ∈ t, isWordChar c = true → isLcAlnum c = true) →
      ∀ w ∈ splitWs (List.map stripChar (stopSub t)), GoodTok w := by
  intro n
  induction n with
  | zero =>
    intro t ht _
    have : t = [] := List.length_eq_zero.mp (Nat.le_zero.mp ht)
    subst this
    rw [stopSub_nil]
    intro w hw
    simp [splitWs_nil] at hw
  | succ n ih =>
    intro t ht hclean
    match t with
    | [] =>
      rw [stopSub_nil]
      intro w hw
      simp [splitWs_nil] at hw
    | c :: cs =>
      have hcs : cs.length ≤ n := by
        simp only [List.length_cons] at ht
        omega
      have hdroplen : (cs.dropWhile isWordChar).length ≤ n :=
        le_trans (List.dropWhile_sublist _).length_le hcs
      have hdropclean : ∀ d ∈ cs.dropWhile isWordChar,
          isWordChar d = true → isLcAlnum d = true :=
        fun d hd => hclean d (List.mem_cons_of_mem c ((List.dropWhile_sublist _).subset hd))
      have hcsclean : ∀ d ∈ cs, isWordChar d = true → isLcAlnum d = true :=
        fun d hd => hclean d (List.mem_cons_of_mem c hd)
      by_cases hwc : isWordChar c = true
      · rw [stopSub_cons_word c cs hwc]
        by_cases hst : isStop (c :: cs.takeWhile isWordChar) = true
        · rw [if_pos hst, List.singleton_append, List.map_cons, stripChar_space,
            splitWs_cons_ws ' ' _ (by decide)]
          exact ih (cs.dropWhile isWordChar) hdroplen hdropclean
        · rw [if_neg hst]
          have hruntok : ∀ d ∈ (c :: cs.takeWhile isWordChar), isLcAlnum d = true := by
            intro d hd
            rcases List.mem_cons.mp hd with hd | hd
            · rw [hd]
              exact hclean c (List.mem_cons_self c cs) hwc
            · exact hcsclean d ((List.takeWhile_sublist _).subset hd)
                (List.mem_takeWhile_imp hd)
          have hrunfix : List.map stripChar (c :: cs.takeWhile isWordChar)
              = c :: cs.takeWhile isWordChar := by
            have h1 : ∀ d ∈ (c :: cs.takeWhile isWordChar), stripChar d = id d := by
              intro d hd
              simpa using stripChar_lcAlnum d (hruntok d hd)
            rw [List.map_congr_left h1, List.map_id]
          rw [List.map_append, hrunfix]
          have hrshape : List.map stripChar (stopSub (cs.dropWhile isWordChar)) = [] ∨
              ∃ x rs, List.map stripChar (stopSub (cs.dropWhile isWordChar)) = x :: rs ∧
                isWS x = true := by
            rcases hdrop : cs.dropWhile isWordChar with _ | ⟨d, ds⟩
            · left
              rw [stopSub_nil]
              rfl
            · right
              have hd : isWordChar d = false := dropWhile_head_false isWordChar cs d ds hdrop
              rw [stopSub_cons_nonword d ds hd, List.map_cons, stripChar_nonword d hd]
              exact ⟨' ', _, rfl, by decide⟩
          rw [splitWs_append_run (c :: cs.takeWhile isWordChar) _ (by simp)
            (fun d hd => lcAlnum_not_ws d (hruntok d hd)) hrshape]
          intro w hw
          rcases List.mem_cons.mp hw with hw | hw
          · rw [hw]
            exact ⟨by simp, hruntok, Bool.eq_false_iff.mpr hst⟩
          · exact ih (cs.dropWhile isWordChar) hdroplen hdropclean w hw
      · have hwcf : isWordChar c = false := Bool.eq_false_iff.mpr hwc
        rw [stopSub_cons_nonword c cs hwcf, List.map_cons, stripChar_nonword c hwcf,
          splitWs_cons_ws ' ' _ (by decide)]
        exact ih cs hcs hcsclean

/-- Unfolding equation of `joinSpace` on the empty token list. -/
theorem joinSpace_nil : joinSpace [] = [] := rfl

/-- Unfolding equation of `joinSpace` on a single token. -/
theorem joinSpace_single (t : List Char) : joinSpace [t] = t := rfl

/-- Unfolding equation of `joinSpace` on two or more tokens. -/
theorem joinSpace_cons₂ (t u : List Char) (us : List (List Char)) :
    joinSpace (t :: u :: us) = t ++ ' ' :: joinSpace (u :: us) := rfl

/-- Every character of a space-join is a space or belongs to a token. -/
theorem joinSpace_chars :
    ∀ (ts : List (List Char)) (c : Char), c ∈ joinSpace ts →
      c = ' ' ∨ ∃ t ∈ ts, c ∈ t := by
  intro ts
  induction ts with
  | nil =>
    intro c hc
    rw [joinSpace_nil] at hc
    simp at hc
  | cons t rest ih =>
    intro c hc
    cases rest with
    | nil =>
      rw [joinSpace_single] at hc
      exact Or.inr ⟨t, List.mem_cons_self t [], hc⟩
    | cons u us =>
      rw [joinSpace_cons₂] at hc
      rcases List.mem_append.mp hc with hc | hc
      · exact Or.inr ⟨t, List.mem_cons_self t _, hc⟩
      · rcases List.mem_cons.mp hc with hc | hc
        · exact Or.inl hc
        · rcases ih c hc with h' | ⟨v, hv, hcv⟩
          · exact Or.inl h'
          · exact Or.inr ⟨v, List.mem_cons_of_mem t hv, hcv⟩

/-- Characters of a join of good tokens: space or lower-alphanumeric. -/
theorem goodTok_chars (ts : List (List Char)) (hgood : ∀ t ∈ ts, GoodTok t)
    (c : Char) (hc : c ∈ joinSpace ts) : c = ' ' ∨ isLcAlnum c = true := by
  rcases joinSpace_chars ts c hc with h | ⟨t, ht, hct⟩
  · exact Or.inl h
  · exact Or.inr ((hgood t ht).2.1 c hct)

/-- The comma-removal stage fixes a join of good tokens. -/
theorem filter_comma_joinSpace (ts : List (List Char)) (hgood : ∀ t ∈ ts, GoodTok t) :
    (joinSpace ts).filter (fun c => !(c == ',')) = joinSpace ts := by
  apply List.filter_eq_self.mpr
  intro a ha
  have hne : ¬(a = ',') := by
    rcases goodTok_chars ts hgood a ha with h | h
    · rw [h]
      decide
    · intro hcon
      rw [hcon] at h
      revert h
      decide
  simp [hne]

/-- The lowercase stage fixes a join of good tokens. -/
theorem map_pyLower_joinSpace (ts : List (List Char)) (hgood : ∀ t ∈ ts, GoodTok t) :
    (joinSpace ts).map pyLower = joinSpace ts := by
  have h1 : ∀ a ∈ joinSpace ts, pyLower a = id a := by
    intro a ha
    rcases goodTok_chars ts hgood a ha with h | h
    · rw [h]
      simpa using pyLower_space
    · simpa using pyLower_lcAlnum a h
  rw [List.map_congr_left h1, List.map_id]

/-- The strip stage fixes a join of good tokens. -/
theorem map_stripChar_joinSpace (ts : List (List Char)) (hgood : ∀ t ∈ ts, GoodTok t) :
    (joinSpace ts).map stripChar = joinSpace ts := by
  have h1 : ∀ a ∈ joinSpace ts, stripChar a = id a := by
    intro a ha
    rcases goodTok_chars ts hgood a ha with h | h
    · rw [h]
      simpa using stripChar_space
    · simpa using stripChar_lcAlnum a h
  rw [List.map_congr_left h1, List.map_id]

/-- The stop-word stage fixes a join of good tokens: each token is one
maximal word run, none of which is a stop word. -/
theorem stopSub_joinSpace :
    ∀ (ts : List (List Char)), (∀ t ∈ ts, GoodTok t) →
      stopSub (joinSpace ts) = joinSpace ts := by
  intro ts
  induction ts with
  | nil =>
    intro _
    rw [joinSpace_nil, stopSub_nil]
  | cons t rest ih =>
    intro hgood
    obtain ⟨hne, hchars, hstop⟩ := hgood t (List.mem_cons_self t rest)
    cases rest with
    | nil =>
      rw [joinSpace_single]
      cases t with
      | nil => exact absurd rfl hne
      | cons c cs =>
        have hword : ∀ d ∈ c :: cs, isWordChar d = true :=
          fun d hd => lcAlnum_word d (hchars d hd)
        rw [stopSub_cons_word c cs (hword c (List.mem_cons_self c cs)),
          takeWhile_of_all isWordChar cs (fun d hd => hword d (List.mem_cons_of_mem c hd)),
          if_neg (Bool.eq_false_iff.mp hstop),
          dropWhile_of_all isWordChar cs (fun d hd => hword d (List.mem_cons_of_mem c hd)),
          stopSub_nil, List.append_nil]
    | cons u us =>
      rw [joinSpace_cons₂]
      cases t with
      | nil => exact absurd rfl hne
      | cons c cs =>
        have hword : ∀ d ∈ c :: cs, isWordChar d = true :=
          fun d hd => lcAlnum_word d (hchars d hd)
        have htail : ∀ d ∈ cs, isWordChar d = true :=
          fun d hd => hword d (List.mem_cons_of_mem c hd)
        rw [List.cons_append,
          stopSub_cons_word c (cs ++ ' ' :: joinSpace (u :: us))
            (hword c (List.mem_cons_self c cs)),
          takeWhile_append_of_all isWordChar cs _ htail,
          List.takeWhile_cons_of_neg (by decide), List.append_nil,
          if_neg (Bool.eq_false_iff.mp hstop),
          dropWhile_append_of_all isWordChar cs _ htail,
          List.dropWhile_cons_of_neg (by decide),
          stopSub_cons_nonword ' ' _ (by decide),
          ih (fun t' ht' => hgood t' (List.mem_cons_of_mem _ ht')),
          List.cons_append]

/-- The split stage recovers the tokens from a join of good tokens. -/
theorem splitWs_joinSpace :
    ∀ (ts : List (List Char)), (∀ t ∈ ts, GoodTok t) →
      splitWs (joinSpace ts) = ts := by
  intro ts
  induction ts with
  | nil =>
    intro _
    rw [joinSpace_nil, splitWs_nil]
  | cons t rest ih =>
    intro hgood
    obtain ⟨hne, hchars, _⟩ := hgood t (List.mem_cons_self t rest)
    have hnws : ∀ c ∈ t, isWS c = false :=
      fun c hc => lcAlnum_not_ws c (hchars c hc)
    cases rest with
    | nil =>
      rw [joinSpace_single]
      have := splitWs_append_run t [] hne hnws (Or.inl rfl)
      rw [List.append_nil] at this
      rw [this, splitWs_nil]
    | cons u us =>
      rw [joinSpace_cons₂,
        splitWs_append_run t (' ' :: joinSpace (u :: us)) hne hnws
          (Or.inr ⟨' ', joinSpace (u :: us), rfl, by decide⟩),
        splitWs_cons_ws ' ' _ (by decide),
        ih (fun t' ht' => hgood t' (List.mem_cons_of_mem t ht'))]

/-- A join of good tokens is a fixed point of `normalize_answer`. -/
theorem normalize_answer_fixed (ts : List (List Char))
    (hgood : ∀ t ∈ ts, GoodTok t) :
    normalize_answer (joinSpace ts) = joinSpace ts := by
  unfold normalize_answer
  rw [filter_comma_joinSpace ts hgood, map_pyLower_joinSpace ts hgood,
    stopSub_joinSpace ts hgood, map_stripChar_joinSpace ts hgood,
    splitWs_joinSpace ts hgood]

/-- C4, counterexample: `_and_` - the underscore is a regex word character,
so the stop-word pass does not fire, but the strip pass later deletes the
underscores and exposes the bare stop word - normalizes to `and`, and
normalizing again yields the empty string: `normalize_answer` is not
idempotent. -/
theorem normalize_not_idempotent_underscore :
    normalize_answer (normalize_answer ("_and_".toList))
      ≠ normalize_answer ("_and_".toList) := by decide

/-- C4 (corrected): `normalize_answer` is idempotent on every ASCII input
containing no underscore (the model is ASCII-faithful: NFD is the identity
there; outside ASCII further counterexamples exist, e.g. word characters
that the strip stage deletes, and on underscores the counterexample above
fails idempotence). -/
theorem normalize_idempotent_no_underscore (s : List Char)
    (h : ∀ c ∈ s, c.toNat ≤ 127 ∧ ¬(c = '_')) :
    normalize_answer (normalize_answer s) = normalize_answer s := by
  have hclean : ∀ c ∈ List.map pyLower (List.filter (fun c => !(c == ',')) s),
      isWordChar c = true → isLcAlnum c = true := by
    intro c hc hw
    rcases List.mem_map.mp hc with ⟨d, hd, rfl⟩
    exact pyLower_word_class d (h d (List.mem_of_mem_filter hd)).2 hw
  have hgood : ∀ w ∈ splitWs (List.map stripChar (stopSub (List.map pyLower
      (List.filter (fun c => !(c == ',')) s)))), GoodTok w :=
    goodRuns (List.map pyLower (List.filter (fun c => !(c == ',')) s)).length _
      (le_refl _) hclean
  show normalize_answer (joinSpace (splitWs (List.map stripChar (stopSub
    (List.map pyLower (List.filter (fun c => !(c == ',')) s)))))) = normalize_answer s
  rw [normalize_answer_fixed _ hgood]
  rfl

/-- C4, witness: the theorem applied to `The API, the cache!`, an ASCII
string with no underscore. -/
theorem normalize_idempotent_witness :
    normalize_answer (normalize_answer ("The API, the cache!".toList))
      = normalize_answer ("The API, the cache!".toList) :=
  normalize_idempotent_no_underscore ("The API, the cache!".toList) (by decide)

end Engram
